import Mathlib

/-!
Verification of the UIDAI enrollment dashboard aggregation core
(`aggregation.py` and `master_table.py`).

The pipeline is shallowly embedded as follows.

* Text values are lists of Unicode code points, represented as naturals.
* `normalize_text` follows the source order exactly: NFKD decomposition,
  lowercasing, replacing every character that is neither a word character
  nor whitespace by a space, collapsing whitespace runs to a single space,
  and trimming.  The NFKD table (`nfkdCp`) models the library call
  `unicodedata.normalize "NFKD"` on a representative set of compatibility
  characters and is the identity elsewhere; word/whitespace classification
  models the ASCII fragment of the regex classes `\w` and `\s`.
* CSV cells are `Option (List Nat)` (a missing cell is `none`, mirroring a
  pandas `NaN`); `stringifyO` models `.astype(str)`, which renders a
  missing value as the text `nan`.
* `pd.to_datetime(dayfirst := True, errors := coerce)` is modelled by
  `parseDateO` on day-first `d-m-yyyy` / `d/m/yyyy` numerals, returning
  `none` where the library returns `NaT`.
* `pd.to_numeric(errors := coerce)` is modelled over the finite fragment
  by `parseNumQ` (exact rationals: the source data are integer counts,
  for which float64 arithmetic is exact), with `.fillna 0` giving
  `toNumOrZeroO`.  The pandas parser additionally converts the signed
  infinity literals (`inf` / `Infinity`, case-insensitive) to IEEE ±inf,
  which the zero-fill leaves alone: `parseNumExt` / `toNumOrZeroExt`
  model that full coercion over `ExtNum` (a rational or a signed
  infinity); the aggregation pipeline itself runs over the finite
  fragment.
* A chunk is an explicit slice of the row list (`chunksOf`), group-by-sum
  is `groupbySum`, and `aggregate_folder` is the two-phase pipeline with
  the `pd.concat` of an empty collection modelled as the thrown
  `ValueError` (an `Except.error`).
* `master_table.py` lines 33-121 are `addTotal`, `leftJoin`, and
  `deriveMaster`/`buildMaster` (merge, `fillna 0`, `replace 0 1`, derived
  metrics).

Note: pandas `groupby` additionally drops rows whose group key contains a
null; keys produced by the cleaning stage (`date`, `state`, `district`)
are never null, so that filter is not modelled.
-/

/-- ASCII decimal digit. -/
def isDigitCp (c : Nat) : Bool := 48 ≤ c && c ≤ 57

/-- ASCII uppercase letter. -/
def isUpperCp (c : Nat) : Bool := 65 ≤ c && c ≤ 90

/-- ASCII lowercase letter. -/
def isLowerCp (c : Nat) : Bool := 97 ≤ c && c ≤ 122

/-- Word character, the ASCII fragment of the regex class used on line 28
of aggregation.py. -/
def isWordCp (c : Nat) : Bool := isDigitCp c || isUpperCp c || isLowerCp c || c == 95

/-- Whitespace character, the ASCII fragment of the regex class. -/
def isSpaceCp (c : Nat) : Bool := c == 32 || c == 9 || c == 10 || c == 13

/-- Model of the per-character NFKD compatibility decomposition performed by
line 26 of aggregation.py: representative compatibility characters
(no-break space, a fullwidth ligature, accented letters, a superscript)
are decomposed; every other code point is left alone. -/
def nfkdCp (c : Nat) : List Nat :=
  if c = 0xA0 then [32]
  else if c = 0xFB01 then [102, 105]
  else if c = 0xC9 then [69, 0x301]
  else if c = 0xE9 then [101, 0x301]
  else if c = 0xB2 then [50]
  else [c]

/-- ASCII lowercasing, the fragment of `str.lower` exercised by the state
and district vocabulary. -/
def lowerCp (c : Nat) : Nat := if 65 ≤ c ∧ c ≤ 90 then c + 32 else c

/-- ASCII uppercasing (used by `str.title`). -/
def upperCp (c : Nat) : Nat := if 97 ≤ c ∧ c ≤ 122 then c - 32 else c

/-- NFKD over a whole string (line 26). -/
def nfkdStr (s : List Nat) : List Nat := s.flatMap nfkdCp

/-- Lowercasing over a whole string (line 27). -/
def lowerStr (s : List Nat) : List Nat := s.map lowerCp

/-- Replacing every character that is neither a word character nor
whitespace by a single space (line 28). -/
def punctToSpace (s : List Nat) : List Nat :=
  s.map (fun c => if isWordCp c || isSpaceCp c then c else 32)

/-- Collapsing each maximal whitespace run to one space (line 29): a
whitespace character followed by another whitespace character is dropped,
and a surviving whitespace character is rendered as the space 32. -/
def collapseWS : List Nat → List Nat
  | [] => []
  | [c] => [if isSpaceCp c then 32 else c]
  | c :: d :: rest =>
    if isSpaceCp c && isSpaceCp d then collapseWS (d :: rest)
    else (if isSpaceCp c then 32 else c) :: collapseWS (d :: rest)

/-- Stripping leading and trailing whitespace (line 30). -/
def trimStr (s : List Nat) : List Nat :=
  ((s.dropWhile isSpaceCp).reverse.dropWhile isSpaceCp).reverse

/-- The text normalization of aggregation.py lines 23-31, applied to one
value of the series, in source order: NFKD, lowercase, punctuation to
space, whitespace collapse, strip. -/
def normalize_text (s : List Nat) : List Nat :=
  trimStr (collapseWS (punctToSpace (lowerStr (nfkdStr s))))

/-- Code points of a string literal (convenience for writing the embedded
vocabulary). -/
def str2cp (s : String) : List Nat := s.data.map Char.toNat

/-- Model of `.astype(str)` on one cell: a present text cell is kept, a
missing cell (pandas `NaN`) is rendered as the text `nan`. -/
def stringifyO (v : Option (List Nat)) : List Nat :=
  match v with
  | some s => s
  | none => str2cp "nan"

/-- Stringify-then-normalize of one raw cell, the per-cell action of
`normalize_text` on a series (lines 23-31). -/
def normalizeO (v : Option (List Nat)) : List Nat := normalize_text (stringifyO v)

/-- The canonical state master of aggregation.py lines 37-78: normalized
variant text paired with the official display name. -/
def STATE_MASTER : List (List Nat × List Nat) :=
  [ (str2cp "andhra pradesh", str2cp "Andhra Pradesh"),
    (str2cp "arunachal pradesh", str2cp "Arunachal Pradesh"),
    (str2cp "assam", str2cp "Assam"),
    (str2cp "bihar", str2cp "Bihar"),
    (str2cp "chhattisgarh", str2cp "Chhattisgarh"),
    (str2cp "goa", str2cp "Goa"),
    (str2cp "gujarat", str2cp "Gujarat"),
    (str2cp "haryana", str2cp "Haryana"),
    (str2cp "himachal pradesh", str2cp "Himachal Pradesh"),
    (str2cp "jharkhand", str2cp "Jharkhand"),
    (str2cp "karnataka", str2cp "Karnataka"),
    (str2cp "kerala", str2cp "Kerala"),
    (str2cp "madhya pradesh", str2cp "Madhya Pradesh"),
    (str2cp "maharashtra", str2cp "Maharashtra"),
    (str2cp "manipur", str2cp "Manipur"),
    (str2cp "meghalaya", str2cp "Meghalaya"),
    (str2cp "mizoram", str2cp "Mizoram"),
    (str2cp "nagaland", str2cp "Nagaland"),
    (str2cp "odisha", str2cp "Odisha"),
    (str2cp "punjab", str2cp "Punjab"),
    (str2cp "rajasthan", str2cp "Rajasthan"),
    (str2cp "sikkim", str2cp "Sikkim"),
    (str2cp "tamil nadu", str2cp "Tamil Nadu"),
    (str2cp "telangana", str2cp "Telangana"),
    (str2cp "tripura", str2cp "Tripura"),
    (str2cp "uttar pradesh", str2cp "Uttar Pradesh"),
    (str2cp "uttarakhand", str2cp "Uttarakhand"),
    (str2cp "west bengal", str2cp "West Bengal"),
    (str2cp "andaman and nicobar islands", str2cp "Andaman and Nicobar Islands"),
    (str2cp "chandigarh", str2cp "Chandigarh"),
    (str2cp "dadra and nagar haveli and daman and diu",
      str2cp "Dadra and Nagar Haveli and Daman and Diu"),
    (str2cp "delhi", str2cp "Delhi"),
    (str2cp "jammu and kashmir", str2cp "Jammu and Kashmir"),
    (str2cp "ladakh", str2cp "Ladakh"),
    (str2cp "lakshadweep", str2cp "Lakshadweep"),
    (str2cp "puducherry", str2cp "Puducherry") ]

/-- Exact dictionary lookup of a normalized state string in the canonical
master, the `.map STATE_MASTER` of line 127. -/
def lookupState (s : List Nat) : Option (List Nat) :=
  (STATE_MASTER.find? (fun p => decide (p.1 = s))).map (fun p => p.2)

/-- Title-casing walk (`.str.title()` of line 135): an alphabetic character
that does not follow an alphabetic character is uppercased, later
characters of an alphabetic run are lowercased. -/
def titleAux : Bool → List Nat → List Nat
  | _, [] => []
  | prev, c :: rest =>
    let alpha := isUpperCp c || isLowerCp c
    (if alpha && !prev then upperCp c
     else if alpha then lowerCp c else c) :: titleAux alpha rest

/-- Title-casing of a whole string. -/
def titleCase (s : List Nat) : List Nat := titleAux false s

/-- Splitting a string on a separator code point. -/
def splitCp (sep : Nat) : List Nat → List (List Nat)
  | [] => [[]]
  | c :: rest =>
    let r := splitCp sep rest
    if c = sep then [] :: r
    else
      match r with
      | [] => [[c]]
      | g :: gs => (c :: g) :: gs

/-- Value of a nonempty all-digit string, `none` otherwise. -/
def digitsVal (s : List Nat) : Option Nat :=
  if s ≠ [] ∧ s.all isDigitCp then
    some (s.foldl (fun a c => a * 10 + (c - 48)) 0)
  else none

/-- Day-first date parsing for one separator: `d⟨sep⟩m⟨sep⟩yyyy` with a
calendar-range check, encoded as `y * 10000 + m * 100 + d`. -/
def parseDMY (sep : Nat) (s : List Nat) : Option Nat :=
  match splitCp sep s with
  | [ds, ms, ys] =>
    match digitsVal ds, digitsVal ms, digitsVal ys with
    | some d, some m, some y =>
      if 1 ≤ d ∧ d ≤ 31 ∧ 1 ≤ m ∧ m ≤ 12 ∧ ys.length = 4 then
        some (y * 10000 + m * 100 + d)
      else none
    | _, _, _ => none
  | _ => none

/-- Model of `pd.to_datetime(dayfirst := True, errors := coerce)` of lines
116-120 on one cell: day-first numeric dates with `-` or `/` separators
parse, everything else (including a missing cell, which the library turns
into `NaT`) is `none`. -/
def parseDateO (v : Option (List Nat)) : Option Nat :=
  match v with
  | none => none
  | some s =>
    match parseDMY 45 s with
    | some d => some d
    | none => parseDMY 47 s

/-- The finite fragment of `pd.to_numeric(errors := coerce)` on one text
cell: an optional leading minus sign, an integer part, and an optional
fractional part, as an exact rational; anything else is `none`.  Text
denoting an infinity is handled by `parseNumExt`, which extends this
parser. -/
def parseNumQ (s : List Nat) : Option ℚ :=
  let signed : ℚ × List Nat :=
    match s with
    | 45 :: rest => (-1, rest)
    | _ => (1, s)
  match splitCp 46 signed.2 with
  | [ip] => (digitsVal ip).map (fun n => signed.1 * (n : ℚ))
  | [ip, fp] =>
    match digitsVal ip, digitsVal fp with
    | some a, some b =>
      some (signed.1 * ((a : ℚ) + (b : ℚ) / ((10 : ℚ) ^ fp.length)))
    | _, _ => none
  | _ => none

/-- Numeric coercion with the `.fillna 0` of lines 141-145: a missing cell
or an unparseable cell becomes zero. -/
def toNumOrZeroO (v : Option (List Nat)) : ℚ :=
  match v with
  | none => 0
  | some s => (parseNumQ s).getD 0

/-- A numeric cell value of the source pipeline: a finite rational, or one
of the two signed IEEE infinities that the pandas parser can produce. -/
inductive ExtNum where
  | finite : ℚ → ExtNum
  | posInf : ExtNum
  | negInf : ExtNum
deriving DecidableEq

/-- Recognizer for the infinity literals accepted by the pandas numeric
parser: an optional leading minus sign followed by `inf` or `infinity`,
case-insensitive. -/
def parseInfQ (s : List Nat) : Option ExtNum :=
  let signed : Bool × List Nat :=
    match s with
    | 45 :: rest => (true, rest)
    | _ => (false, s)
  if signed.2.map lowerCp = str2cp "inf" ∨ signed.2.map lowerCp = str2cp "infinity"
  then some (if signed.1 then ExtNum.negInf else ExtNum.posInf)
  else none

/-- Full model of `pd.to_numeric(errors := coerce)` on one text cell: an
infinity literal becomes the matching signed infinity, every other cell
goes through the finite parser `parseNumQ`.  (Float overflow to infinity
on huge numerals is not modelled.) -/
def parseNumExt (s : List Nat) : Option ExtNum :=
  match parseInfQ s with
  | some e => some e
  | none => (parseNumQ s).map ExtNum.finite

/-- The full numeric coercion of lines 141-145 with the `.fillna 0`: a
missing cell or an unparseable cell becomes zero, but a parsed infinity
survives the zero-fill. -/
def toNumOrZeroExt (v : Option (List Nat)) : ExtNum :=
  match v with
  | none => ExtNum.finite 0
  | some s => (parseNumExt s).getD (ExtNum.finite 0)

/-- A cleaned cell value: text, null, an exact numeric, or a parsed date. -/
inductive Value where
  | vstr : List Nat → Value
  | vnull : Value
  | vnum : ℚ → Value
  | vdate : Nat → Value
deriving DecidableEq

/-- A column name. -/
abbrev Col := List Nat

/-- The `date` column. -/
def dateCol : Col := str2cp "date"

/-- The `state` column. -/
def stateCol : Col := str2cp "state"

/-- The `district` column. -/
def districtCol : Col := str2cp "district"

/-- A raw CSV row: each column holds either text or a missing cell. -/
def RawRow : Type := Col → Option (List Nat)

/-- A cleaned row: each column holds a cleaned cell value. -/
def CRow : Type := Col → Value

/-- A raw cell as a cleaned-row value. -/
def rawVal (v : Option (List Nat)) : Value :=
  match v with
  | some s => Value.vstr s
  | none => Value.vnull

/-- Numeric coercion of an already-assigned cell value, the action of
`pd.to_numeric` on a column after the date/state/district assignments.  A
datetime cell coerces to its numeric encoding, mirroring the library
coercing a datetime column to a number. -/
def coerceNum (v : Value) : ℚ :=
  match v with
  | Value.vstr s => (parseNumQ s).getD 0
  | Value.vnull => 0
  | Value.vnum q => q
  | Value.vdate d => (d : ℚ)

/-- The row after the column assignments of lines 116-136: the `date`
column holds the parsed date, the `state` column the canonical name, the
`district` column the normalized title-cased text, and every other column
its raw cell. -/
def midRow (r : RawRow) (dt : Nat) (st : List Nat) : Col → Value := fun c =>
  if c = districtCol then Value.vstr (titleCase (normalizeO (r districtCol)))
  else if c = stateCol then Value.vstr st
  else if c = dateCol then Value.vdate dt
  else rawVal (r c)

/-- The per-row cleaning of one chunk, aggregation.py lines 116-145, in
source order: parse the date and drop the row on failure (116-121),
normalize and canonicalize the state and drop the row when it has no
canonical entry (126-128), normalize and title-case the district
(133-136), then coerce every designated sum column to a numeric value
(141-145).  The numeric coercion runs last in the source, so it takes
precedence on an overlapping column. -/
def cleanRow (scols : List Col) (r : RawRow) : Option CRow :=
  match parseDateO (r dateCol) with
  | none => none
  | some dt =>
    match lookupState (normalizeO (r stateCol)) with
    | none => none
    | some st =>
      some (fun c =>
        if c ∈ scols then Value.vnum (coerceNum (midRow r dt st c))
        else midRow r dt st c)

/-- One aggregate row: the group key (the tuple of group-column values)
together with the summed metrics, one per designated sum column. -/
structure AggRow (m : Nat) where
  key : List Value
  sums : Fin m → ℚ

/-- The group key of a cleaned row under the caller-chosen group columns,
the grouping of line 152. -/
def keyOf (gcols : List Col) (r : CRow) : List Value := gcols.map r

/-- Numeric reading of a cell for summation. -/
def qOf (v : Value) : ℚ :=
  match v with
  | Value.vnum q => q
  | _ => 0

/-- The metric vector of a cleaned row under the caller-chosen sum
columns. -/
def sumsOf (scols : List Col) (r : CRow) (i : Fin scols.length) : ℚ :=
  qOf (r (scols.get i))

/-- Group-by-sum (`.groupby(...)[...].sum()` of lines 150-154 and the
re-grouping of lines 161-165): one output row per distinct key, carrying
the sum of the metric vectors of the input rows with that key. -/
def groupbySum {α : Type} {m : Nat} (kf : α → List Value) (vf : α → Fin m → ℚ)
    (xs : List α) : List (AggRow m) :=
  ((xs.map kf).dedup).map
    (fun k => ⟨k, ((xs.filter (fun x => decide (kf x = k))).map vf).sum⟩)

/-- Sum of the metric vectors of the rows with a given key. -/
def keySum {α : Type} {m : Nat} (kf : α → List Value) (vf : α → Fin m → ℚ)
    (k : List Value) (xs : List α) : Fin m → ℚ :=
  ((xs.filter (fun x => decide (kf x = k))).map vf).sum

/-- Chunk splitting worker: `k` is the remaining capacity of the chunk
being accumulated in `acc` (kept reversed). -/
def chunksAux (n : Nat) : List α → List α → Nat → List (List α)
  | [], acc, _ => [acc.reverse]
  | x :: xs, acc, 0 => acc.reverse :: chunksAux n xs [x] (n - 1)
  | x :: xs, acc, k + 1 => chunksAux n xs (x :: acc) k

/-- Splitting a row list into successive chunks of at most `n` rows, the
`chunksize` iteration of line 111. -/
def chunksOf (n : Nat) (l : List α) : List (List α) :=
  match l with
  | [] => []
  | x :: xs => chunksAux n xs [x] (n - 1)

/-- The cleaned dataset: every row of every shard, cleaned, in shard
order. -/
def cleanAll (scols : List Col) (files : List (List RawRow)) : List CRow :=
  files.flatten.filterMap (cleanRow scols)

/-- The per-chunk phase of `aggregate_folder` (lines 106-156): for every
shard file and every chunk of it, clean the chunk and group-by-sum it,
collecting the per-chunk aggregate tables in processing order. -/
def chunkTables (n : Nat) (gcols scols : List Col) (files : List (List RawRow)) :
    List (List (AggRow scols.length)) :=
  files.flatMap
    (fun f =>
      (chunksOf n f).map
        (fun ch => groupbySum (keyOf gcols) (sumsOf scols) (ch.filterMap (cleanRow scols))))

/-- The `ValueError` text thrown by `pd.concat` on an empty collection. -/
def concatErr : List Nat := str2cp "No objects to concatenate"

/-- The two-phase aggregation of aggregation.py lines 84-167: per-chunk
clean and group-by-sum, then concatenate every per-chunk table and
re-group-sum by the same key (lines 161-165).  When no chunk was read the
final `pd.concat` raises, modelled as `Except.error`. -/
def aggregate_folder (files : List (List RawRow)) (gcols scols : List Col)
    (n : Nat) : Except (List Nat) (List (AggRow scols.length)) :=
  let tables := chunkTables n gcols scols files
  if tables.isEmpty then Except.error concatErr
  else Except.ok (groupbySum AggRow.key AggRow.sums tables.flatten)

/-- The one-pass reference aggregation: clean the whole dataset and
group-by-sum it once. -/
def onePass (files : List (List RawRow)) (gcols scols : List Col) :
    List (AggRow scols.length) :=
  groupbySum (keyOf gcols) (sumsOf scols) (cleanAll scols files)

/-- Set equality of two aggregate tables: same rows (same keys, same
sums). -/
def aggSetEq {m : Nat} (t₁ t₂ : List (AggRow m)) : Prop := ∀ a, a ∈ t₁ ↔ a ∈ t₂

/-- An enrollment aggregate row after the `total_enrolments` column of
master_table.py line 40 has been added. -/
structure EnrolRow where
  key : List Value
  age_0_5 : ℚ
  age_5_17 : ℚ
  age_18_greater : ℚ
  total_enrolments : ℚ

/-- A demographic or biometric aggregate row after the renames of lines
56-62 and 74-80. -/
structure UpdRow where
  key : List Value
  u_5_17 : ℚ
  u_18_plus : ℚ

/-- One master-table row (columns of master_table.py after line 121). -/
structure MasterRow where
  key : List Value
  age_0_5 : ℚ
  age_5_17 : ℚ
  age_18_greater : ℚ
  total_enrolments : ℚ
  demo_5_17 : ℚ
  demo_18_plus : ℚ
  bio_5_17 : ℚ
  bio_18_plus : ℚ
  update_burden : ℚ
  child_ratio : ℚ
  policy_alert : Bool

/-- Line 40: `total_enrolments` is the sum of the three age bands. -/
def addTotal (a : AggRow 3) : EnrolRow :=
  ⟨a.key, a.sums 0, a.sums 1, a.sums 2, a.sums 0 + a.sums 1 + a.sums 2⟩

/-- The column renames of lines 56-62 / 74-80 (row content unchanged). -/
def toUpd (a : AggRow 2) : UpdRow := ⟨a.key, a.sums 0, a.sums 1⟩

/-- Left join on a key (`merge(..., how := left)` of lines 88-92): each
left row is paired with every matching right row, or with `none` when no
right row matches. -/
def leftJoin {α β : Type} (ls : List α) (rs : List β)
    (lk : α → List Value) (rk : β → List Value) : List (α × Option β) :=
  ls.flatMap (fun l =>
    match rs.filter (fun r => decide (rk r = lk l)) with
    | [] => [(l, none)]
    | ms => ms.map (fun r => (l, some r)))

/-- Lines 94-121 for one joined row: `fillna 0` for the unmatched update
cells, `replace 0 1` on `total_enrolments`, then `update_burden`,
`child_ratio` and the `policy_alert` flag. -/
def deriveMaster (er : EnrolRow) (dm bm : Option UpdRow) : MasterRow :=
  let d5 : ℚ := match dm with | some u => u.u_5_17 | none => 0
  let d18 : ℚ := match dm with | some u => u.u_18_plus | none => 0
  let b5 : ℚ := match bm with | some u => u.u_5_17 | none => 0
  let b18 : ℚ := match bm with | some u => u.u_18_plus | none => 0
  let tot : ℚ := if er.total_enrolments = 0 then 1 else er.total_enrolments
  let burden : ℚ := d5 + d18 + b5 + b18
  { key := er.key
    age_0_5 := er.age_0_5
    age_5_17 := er.age_5_17
    age_18_greater := er.age_18_greater
    total_enrolments := tot
    demo_5_17 := d5
    demo_18_plus := d18
    bio_5_17 := b5
    bio_18_plus := b18
    update_burden := burden
    child_ratio := er.age_0_5 / tot
    policy_alert := decide (burden > (1 / 2 : ℚ) * tot) }

/-- The master-table pipeline of master_table.py lines 33-121: add the
enrollment total, rename the update columns, left-join demographic then
biometric aggregates onto the enrollment aggregate, fill unmatched cells
with zero, and compute the derived metrics. -/
def buildMaster (e : List (AggRow 3)) (d b : List (AggRow 2)) : List MasterRow :=
  let enrol := e.map addTotal
  let demo := d.map toUpd
  let bio := b.map toUpd
  let m1 := leftJoin enrol demo EnrolRow.key UpdRow.key
  let m2 := leftJoin m1 bio (fun p => p.1.key) UpdRow.key
  m2.map (fun p => deriveMaster p.1.1 p.1.2 p.2)

/-- Two adjacent characters are not both whitespace. -/
def spacedApart (a b : Nat) : Prop := ¬(isSpaceCp a = true ∧ isSpaceCp b = true)

/-- No two adjacent whitespace characters. -/
def GoodRuns (s : List Nat) : Prop := List.Chain' spacedApart s

/-- A character left fixed by the normalization pipeline: stable under
NFKD and lowercasing, and either a word character or the single space. -/
def cleanChar (c : Nat) : Prop :=
  nfkdCp c = [c] ∧ lowerCp c = c ∧ (isWordCp c = true ∨ c = 32)

/-- The shape of a fully normalized string: clean characters only, no two
adjacent whitespace characters, no leading and no trailing whitespace. -/
def NormStr (s : List Nat) : Prop :=
  (∀ c ∈ s, cleanChar c) ∧ GoodRuns s ∧
    (∀ c, s.head? = some c → isSpaceCp c = false) ∧
    (∀ c, s.getLast? = some c → isSpaceCp c = false)

lemma word_not_space {c : Nat} (h : isWordCp c = true) : isSpaceCp c = false := by
  simp only [isWordCp, isDigitCp, isUpperCp, isLowerCp, Bool.or_eq_true,
    Bool.and_eq_true, decide_eq_true_eq, beq_iff_eq] at h
  simp only [isSpaceCp, Bool.or_eq_false_iff, beq_eq_false_iff_ne, ne_eq]
  omega

lemma lowerCp_idem (c : Nat) : lowerCp (lowerCp c) = lowerCp c := by
  by_cases h : 65 ≤ c ∧ c ≤ 90
  · have h1 : lowerCp c = c + 32 := by unfold lowerCp; rw [if_pos h]
    rw [h1]; unfold lowerCp; rw [if_neg (by omega)]
  · have h1 : lowerCp c = c := by unfold lowerCp; rw [if_neg h]
    rw [h1, h1]

lemma nfkdCp_stable_of_mem (e c : Nat) (hc : c ∈ nfkdCp e) :
    nfkdCp (lowerCp c) = [lowerCp c] ∧ lowerCp (lowerCp c) = lowerCp c := by
  by_cases hA : e = 0xA0
  · subst hA; simp [nfkdCp] at hc; subst hc; decide
  by_cases hB : e = 0xFB01
  · subst hB; simp [nfkdCp] at hc
    rcases hc with hc | hc <;> subst hc <;> decide
  by_cases hC : e = 0xC9
  · subst hC; simp [nfkdCp] at hc
    rcases hc with hc | hc <;> subst hc <;> decide
  by_cases hD : e = 0xE9
  · subst hD; simp [nfkdCp] at hc
    rcases hc with hc | hc <;> subst hc <;> decide
  by_cases hE : e = 0xB2
  · subst hE; simp [nfkdCp] at hc; subst hc; decide
  have he : nfkdCp e = [e] := by
    unfold nfkdCp
    rw [if_neg hA, if_neg hB, if_neg hC, if_neg hD, if_neg hE]
  rw [he] at hc; simp at hc; subst hc
  by_cases h : 65 ≤ c ∧ c ≤ 90
  · have hl : lowerCp c = c + 32 := by unfold lowerCp; rw [if_pos h]
    rw [hl]
    constructor
    · unfold nfkdCp
      rw [if_neg (by omega), if_neg (by omega), if_neg (by omega),
        if_neg (by omega), if_neg (by omega)]
    · unfold lowerCp; rw [if_neg (by omega)]
  · have hl : lowerCp c = c := by unfold lowerCp; rw [if_neg h]
    rw [hl]; exact ⟨he, hl⟩

lemma cleanChar_space : cleanChar 32 := by
  refine ⟨by decide, by decide, Or.inr rfl⟩

lemma collapseWS_mem {s : List Nat} {c : Nat} (hc : c ∈ collapseWS s) :
    c = 32 ∨ (c ∈ s ∧ isSpaceCp c = false) := by
  induction s with
  | nil => simp [collapseWS] at hc
  | cons a t ih =>
    cases t with
    | nil =>
      simp only [collapseWS, List.mem_singleton] at hc
      by_cases ha : isSpaceCp a = true
      · rw [if_pos ha] at hc; exact Or.inl hc
      · rw [if_neg ha] at hc; subst hc
        exact Or.inr ⟨List.mem_singleton_self c, by simpa using ha⟩
    | cons d rest =>
      simp only [collapseWS] at hc
      by_cases hs : (isSpaceCp a && isSpaceCp d) = true
      · rw [if_pos hs] at hc
        rcases ih hc with h | ⟨hmem, hns⟩
        · exact Or.inl h
        · exact Or.inr ⟨List.mem_cons_of_mem _ hmem, hns⟩
      · rw [if_neg hs] at hc
        rcases List.mem_cons.mp hc with hc | hc
        · by_cases ha : isSpaceCp a = true
          · rw [if_pos ha] at hc; exact Or.inl hc
          · rw [if_neg ha] at hc; subst hc
            exact Or.inr ⟨List.mem_cons_self c _, by simpa using ha⟩
        · rcases ih hc with h | ⟨hmem, hns⟩
          · exact Or.inl h
          · exact Or.inr ⟨List.mem_cons_of_mem _ hmem, hns⟩

lemma collapseWS_cons_of_nonspace {d : Nat} (rest : List Nat)
    (hd : isSpaceCp d = false) : ∃ t, collapseWS (d :: rest) = d :: t := by
  cases rest with
  | nil => exact ⟨[], by simp [collapseWS, hd]⟩
  | cons e rest =>
    refine ⟨collapseWS (e :: rest), ?_⟩
    simp only [collapseWS]
    rw [if_neg (by simp [hd]), if_neg (by simp [hd])]

lemma collapseWS_goodRuns (s : List Nat) : GoodRuns (collapseWS s) := by
  induction s with
  | nil => exact List.chain'_nil
  | cons a t ih =>
    cases t with
    | nil =>
      simp only [collapseWS]
      exact List.chain'_singleton _
    | cons d rest =>
      simp only [collapseWS]
      by_cases hd : isSpaceCp d = true
      · by_cases ha : isSpaceCp a = true
        · rw [if_pos (by simp [ha, hd])]; exact ih
        · rw [if_neg (by simp [ha]), if_neg ha]
          rcases hhead : collapseWS (d :: rest) with _ | ⟨x, xs⟩
          · exact List.chain'_singleton _
          · rw [hhead] at ih
            exact List.chain'_cons.mpr ⟨fun hcon => by simp [ha] at hcon, ih⟩
      · have hd' : isSpaceCp d = false := by simpa using hd
        rw [if_neg (by simp [hd'])]
        obtain ⟨t2, ht2⟩ := collapseWS_cons_of_nonspace rest hd'
        rw [ht2]
        rw [ht2] at ih
        exact List.chain'_cons.mpr ⟨fun hcon => by simp [hd'] at hcon, ih⟩

lemma collapseWS_eq_self {s : List Nat}
    (h1 : ∀ c ∈ s, isSpaceCp c = true → c = 32) (h2 : GoodRuns s) :
    collapseWS s = s := by
  induction s with
  | nil => rfl
  | cons a t ih =>
    cases t with
    | nil =>
      simp only [collapseWS]
      by_cases ha : isSpaceCp a = true
      · rw [if_pos ha, h1 a (List.mem_singleton_self a) ha]
      · rw [if_neg ha]
    | cons d rest =>
      have hnot : ¬(isSpaceCp a = true ∧ isSpaceCp d = true) :=
        List.chain'_cons.mp h2 |>.1
      simp only [collapseWS]
      rw [if_neg (by simpa [Bool.and_eq_true] using hnot)]
      have hrec := ih (fun c hc hsp => h1 c (List.mem_cons_of_mem _ hc) hsp)
        (List.chain'_cons.mp h2 |>.2)
      rw [hrec]
      by_cases ha : isSpaceCp a = true
      · rw [if_pos ha, h1 a (List.mem_cons_self _ _) ha]
      · rw [if_neg ha]

lemma chain'_dropWhile {R : Nat → Nat → Prop} {p : Nat → Bool} {l : List Nat}
    (h : List.Chain' R l) : List.Chain' R (l.dropWhile p) := by
  induction l with
  | nil => exact h
  | cons a t ih =>
    rw [List.dropWhile_cons]
    by_cases hp : p a = true
    · rw [if_pos hp]; exact ih h.tail
    · rw [if_neg hp]; exact h

lemma head?_dropWhile {p : Nat → Bool} {l : List Nat} {c : Nat}
    (h : (l.dropWhile p).head? = some c) : p c = false := by
  induction l with
  | nil => simp [List.dropWhile] at h
  | cons a t ih =>
    rw [List.dropWhile_cons] at h
    by_cases hp : p a = true
    · rw [if_pos hp] at h; exact ih h
    · rw [if_neg hp] at h
      simp only [List.head?_cons, Option.some.injEq] at h
      subst h; simpa using hp

lemma dropWhile_eq_self_of_head {p : Nat → Bool} {l : List Nat}
    (h : ∀ c, l.head? = some c → p c = false) : l.dropWhile p = l := by
  cases l with
  | nil => rfl
  | cons a t =>
    rw [List.dropWhile_cons, if_neg]
    simp [h a rfl]

lemma goodRuns_reverse {l : List Nat} (h : GoodRuns l) : GoodRuns l.reverse := by
  refine List.chain'_reverse.mpr ?_
  exact h.imp (fun a b hab => fun hcon => hab ⟨hcon.2, hcon.1⟩)

lemma trimStr_goodRuns {s : List Nat} (h : GoodRuns s) : GoodRuns (trimStr s) := by
  unfold trimStr
  exact goodRuns_reverse (chain'_dropWhile (goodRuns_reverse (chain'_dropWhile h)))

lemma trimStr_subset {s : List Nat} {c : Nat} (hc : c ∈ trimStr s) : c ∈ s := by
  unfold trimStr at hc
  rw [List.mem_reverse] at hc
  have h1 := (List.dropWhile_suffix _).subset hc
  rw [List.mem_reverse] at h1
  exact (List.dropWhile_suffix _).subset h1

lemma trimStr_head {s : List Nat} {c : Nat} (h : (trimStr s).head? = some c) :
    isSpaceCp c = false := by
  unfold trimStr at h
  set s1 := s.dropWhile isSpaceCp with hs1
  have hpre : trimStr s <+: s1 := by
    rw [← List.reverse_suffix]
    unfold trimStr
    rw [← hs1, List.reverse_reverse]
    exact List.dropWhile_suffix _
  obtain ⟨t, ht⟩ := hpre
  have hh : s1.head? = some c := by
    rw [← ht, List.head?_append]
    unfold trimStr
    rw [← hs1, h]
    rfl
  exact head?_dropWhile hh

lemma trimStr_last {s : List Nat} {c : Nat} (h : (trimStr s).getLast? = some c) :
    isSpaceCp c = false := by
  unfold trimStr at h
  rw [List.getLast?_reverse] at h
  exact head?_dropWhile h

lemma punctToSpace_mem {s : List Nat} {c : Nat} (hc : c ∈ punctToSpace s) :
    c = 32 ∨ (c ∈ s ∧ (isWordCp c || isSpaceCp c) = true) := by
  unfold punctToSpace at hc
  rcases List.mem_map.mp hc with ⟨b, hb, hbc⟩
  by_cases h : (isWordCp b || isSpaceCp b) = true
  · rw [if_pos h] at hbc; subst hbc; exact Or.inr ⟨hb, h⟩
  · rw [if_neg h] at hbc; exact Or.inl hbc.symm

lemma lower_nfkd_mem {s : List Nat} {c : Nat} (hc : c ∈ lowerStr (nfkdStr s)) :
    ∃ e d, d ∈ nfkdCp e ∧ c = lowerCp d := by
  unfold lowerStr nfkdStr at hc
  rcases List.mem_map.mp hc with ⟨d, hd, hdc⟩
  rcases List.mem_flatMap.mp hd with ⟨e, _, hde⟩
  exact ⟨e, d, hde, hdc.symm⟩

lemma nfkdStr_eq_self {s : List Nat} (h : ∀ c ∈ s, nfkdCp c = [c]) :
    nfkdStr s = s := by
  induction s with
  | nil => rfl
  | cons a t ih =>
    unfold nfkdStr at *
    rw [List.flatMap_cons, h a (List.mem_cons_self _ _),
      ih (fun c hc => h c (List.mem_cons_of_mem _ hc))]
    rfl

lemma lowerStr_eq_self {s : List Nat} (h : ∀ c ∈ s, lowerCp c = c) :
    lowerStr s = s := by
  unfold lowerStr
  rw [List.map_congr_left h]
  simp

lemma punctToSpace_eq_self {s : List Nat}
    (h : ∀ c ∈ s, isWordCp c = true ∨ c = 32) : punctToSpace s = s := by
  unfold punctToSpace
  have : ∀ c ∈ s, (if isWordCp c || isSpaceCp c then c else 32) = c := by
    intro c hc
    rcases h c hc with hw | h32
    · rw [if_pos (by simp [hw])]
    · subst h32; rw [if_pos (by decide)]
  rw [List.map_congr_left this]
  simp

lemma trimStr_eq_self {s : List Nat}
    (hh : ∀ c, s.head? = some c → isSpaceCp c = false)
    (hl : ∀ c, s.getLast? = some c → isSpaceCp c = false) : trimStr s = s := by
  have h1 : List.dropWhile isSpaceCp s = s := dropWhile_eq_self_of_head hh
  have h2 : List.dropWhile isSpaceCp s.reverse = s.reverse :=
    dropWhile_eq_self_of_head
      (fun c hc => by rw [List.head?_reverse] at hc; exact hl c hc)
  unfold trimStr
  rw [h1, h2, List.reverse_reverse]

/-- Every output of `normalize_text` is in fully normalized shape. -/
lemma normStr_normalize_text (s : List Nat) : NormStr (normalize_text s) := by
  unfold normalize_text
  refine ⟨?_, ?_, ?_, ?_⟩
  · intro c hc
    have hcol := trimStr_subset hc
    rcases collapseWS_mem hcol with h32 | ⟨hpun, hns⟩
    · subst h32; exact cleanChar_space
    rcases punctToSpace_mem hpun with h32 | ⟨hlow, hws⟩
    · subst h32; exact cleanChar_space
    have hw : isWordCp c = true := by
      rcases Bool.or_eq_true _ _ |>.mp hws with hw | hsp
      · exact hw
      · rw [hsp] at hns; cases hns
    rcases lower_nfkd_mem hlow with ⟨e, d, hde, hcd⟩
    subst hcd
    have hst := nfkdCp_stable_of_mem e d hde
    exact ⟨hst.1, hst.2, Or.inl hw⟩
  · exact trimStr_goodRuns (collapseWS_goodRuns _)
  · intro c hc; exact trimStr_head hc
  · intro c hc; exact trimStr_last hc

/-- The normalization pipeline is the identity on a fully normalized
string. -/
lemma normalize_text_eq_self {t : List Nat} (h : NormStr t) :
    normalize_text t = t := by
  obtain ⟨hchar, hruns, hhead, hlast⟩ := h
  unfold normalize_text
  rw [nfkdStr_eq_self (fun c hc => (hchar c hc).1),
    lowerStr_eq_self (fun c hc => (hchar c hc).2.1),
    punctToSpace_eq_self (fun c hc => (hchar c hc).2.2),
    collapseWS_eq_self ?_ hruns, trimStr_eq_self hhead hlast]
  intro c hc hsp
  rcases (hchar c hc).2.2 with hw | h32
  · rw [word_not_space hw] at hsp; cases hsp
  · exact h32

lemma keySum_append {α : Type} {m : Nat} (kf : α → List Value)
    (vf : α → Fin m → ℚ) (k : List Value) (xs ys : List α) :
    keySum kf vf k (xs ++ ys) = keySum kf vf k xs + keySum kf vf k ys := by
  unfold keySum
  rw [List.filter_append, List.map_append, List.sum_append]

lemma keySum_of_not_mem {α : Type} {m : Nat} (kf : α → List Value)
    (vf : α → Fin m → ℚ) (k : List Value) (xs : List α)
    (h : k ∉ xs.map kf) : keySum kf vf k xs = 0 := by
  unfold keySum
  have hnil : xs.filter (fun x => decide (kf x = k)) = [] := by
    rw [List.filter_eq_nil_iff]
    intro x hx
    simp only [decide_eq_true_eq]
    intro hk
    exact h (List.mem_map.mpr ⟨x, hx, hk⟩)
  rw [hnil]
  rfl

lemma mem_groupbySum {α : Type} {m : Nat} {kf : α → List Value}
    {vf : α → Fin m → ℚ} {xs : List α} {a : AggRow m} :
    a ∈ groupbySum kf vf xs ↔
      a.key ∈ xs.map kf ∧ a.sums = keySum kf vf a.key xs := by
  unfold groupbySum
  constructor
  · intro ha
    rcases List.mem_map.mp ha with ⟨k, hk, hka⟩
    subst hka
    exact ⟨List.mem_dedup.mp hk, rfl⟩
  · rintro ⟨hk, hs⟩
    refine List.mem_map.mpr ⟨a.key, List.mem_dedup.mpr hk, ?_⟩
    unfold keySum at hs
    cases a with
    | mk key sums => simp only at hs ⊢; rw [← hs]

lemma map_key_groupbySum {α : Type} {m : Nat} (kf : α → List Value)
    (vf : α → Fin m → ℚ) (xs : List α) :
    (groupbySum kf vf xs).map AggRow.key = (xs.map kf).dedup := by
  unfold groupbySum
  rw [List.map_map]
  exact List.map_id ((xs.map kf).dedup)

lemma nodup_key_groupbySum {α : Type} {m : Nat} (kf : α → List Value)
    (vf : α → Fin m → ℚ) (xs : List α) :
    ((groupbySum kf vf xs).map AggRow.key).Nodup := by
  rw [map_key_groupbySum]
  exact List.nodup_dedup _

lemma filter_eq_of_nodup {l : List (List Value)} (h : l.Nodup)
    (k : List Value) :
    l.filter (fun x => decide (x = k)) = if k ∈ l then [k] else [] := by
  induction l with
  | nil => simp
  | cons a t ih =>
    rcases List.nodup_cons.mp h with ⟨hat, ht⟩
    by_cases hak : a = k
    · subst hak
      rw [List.filter_cons_of_pos (by simp)]
      have : t.filter (fun x => decide (x = a)) = [] := by
        rw [List.filter_eq_nil_iff]
        intro x hx
        simp only [decide_eq_true_eq]
        intro hxa
        subst hxa
        exact hat hx
      rw [this, if_pos (List.mem_cons_self _ _)]
    · rw [List.filter_cons_of_neg (by simp [hak])]
      rw [ih ht]
      by_cases hk : k ∈ t
      · rw [if_pos hk, if_pos (List.mem_cons_of_mem _ hk)]
      · rw [if_neg hk, if_neg (fun hmem => by
          rcases List.mem_cons.mp hmem with h2 | h2
          · exact hak h2.symm
          · exact hk h2)]

lemma keySum_groupbySum {α : Type} {m : Nat} (kf : α → List Value)
    (vf : α → Fin m → ℚ) (k : List Value) (xs : List α) :
    keySum AggRow.key AggRow.sums k (groupbySum kf vf xs) =
      keySum kf vf k xs := by
  have h1 : keySum AggRow.key AggRow.sums k (groupbySum kf vf xs)
      = ((((xs.map kf).dedup.filter (fun k2 => decide (k2 = k))).map
          (fun k2 => AggRow.mk k2 (keySum kf vf k2 xs))).map AggRow.sums).sum := by
    unfold keySum groupbySum
    rw [List.filter_map]
    rfl
  rw [h1, filter_eq_of_nodup (List.nodup_dedup _) k]
  by_cases hk : k ∈ (xs.map kf).dedup
  · rw [if_pos hk]
    simp only [List.map_cons, List.map_nil, List.sum_cons, List.sum_nil]
    rw [add_zero]
  · rw [if_neg hk]
    have hnm : k ∉ xs.map kf := fun hc => hk (List.mem_dedup.mpr hc)
    rw [keySum_of_not_mem kf vf k xs hnm]
    rfl

lemma keySum_flatten {α : Type} {m : Nat} (kf : α → List Value)
    (vf : α → Fin m → ℚ) (k : List Value) (css : List (List α)) :
    keySum kf vf k css.flatten =
      (css.map (fun cs => keySum kf vf k cs)).sum := by
  induction css with
  | nil => rfl
  | cons cs rest ih =>
    rw [List.flatten_cons, keySum_append, List.map_cons, List.sum_cons, ih]

lemma sum_map_filter_split {α : Type} {β : Type} [AddCommMonoid β]
    (f : α → β) (p : α → Bool) (l : List α) :
    ((l.filter p).map f).sum + ((l.filter (fun x => !p x)).map f).sum =
      (l.map f).sum := by
  induction l with
  | nil => simp
  | cons a t ih =>
    by_cases h : p a = true
    · rw [List.filter_cons_of_pos h, List.filter_cons_of_neg (by simp [h])]
      simp only [List.map_cons, List.sum_cons]
      rw [add_assoc, ih]
    · rw [List.filter_cons_of_neg h, List.filter_cons_of_pos (by simp [h])]
      simp only [List.map_cons, List.sum_cons]
      rw [add_left_comm, ih]

lemma cover_sum {α : Type} {m : Nat} (kf : α → List Value)
    (vf : α → Fin m → ℚ) :
    ∀ (ks : List (List Value)) (xs : List α), ks.Nodup →
      (∀ x ∈ xs, kf x ∈ ks) →
      (ks.map (fun k => keySum kf vf k xs)).sum = (xs.map vf).sum := by
  intro ks
  induction ks with
  | nil =>
    intro xs _ hcov
    have hxs : xs = [] := by
      rw [List.eq_nil_iff_forall_not_mem]
      intro x hx
      exact List.not_mem_nil (kf x) (hcov x hx)
    subst hxs
    rfl
  | cons k ks ih =>
    intro xs hnd hcov
    rcases List.nodup_cons.mp hnd with ⟨hknotin, hksnd⟩
    rw [List.map_cons, List.sum_cons]
    have hmap : ks.map (fun k2 => keySum kf vf k2 xs) =
        ks.map (fun k2 => keySum kf vf k2
          (xs.filter (fun x => !decide (kf x = k)))) := by
      apply List.map_congr_left
      intro k2 hk2
      unfold keySum
      rw [List.filter_filter]
      apply congrArg
      apply congrArg
      apply List.filter_congr
      intro x _
      by_cases hx : kf x = k2
      · have hne : ¬kf x = k := by
          intro hc
          apply hknotin
          rw [← hx, hc] at hk2
          exact hk2
        have hk2ne : ¬k2 = k := fun hc => hknotin (hc ▸ hk2)
        simp [hx, hne, hk2ne]
      · simp [hx]
    rw [hmap, ih (xs.filter (fun x => !decide (kf x = k))) hksnd ?_]
    · have := sum_map_filter_split vf (fun x => decide (kf x = k)) xs
      unfold keySum
      rw [this]
    · intro x hx
      rcases List.mem_filter.mp hx with ⟨hxs, hnk⟩
      rcases hcov x hxs with hmem
      rcases List.mem_cons.mp hmem with heq | hin
      · exfalso
        simp only [Bool.not_eq_true', decide_eq_false_iff_not] at hnk
        exact hnk heq
      · exact hin

lemma sum_sums_groupbySum {α : Type} {m : Nat} (kf : α → List Value)
    (vf : α → Fin m → ℚ) (xs : List α) :
    ((groupbySum kf vf xs).map AggRow.sums).sum = (xs.map vf).sum := by
  have h1 : (groupbySum kf vf xs).map AggRow.sums =
      ((xs.map kf).dedup).map (fun k => keySum kf vf k xs) := by
    unfold groupbySum
    rw [List.map_map]
    rfl
  rw [h1]
  apply cover_sum
  · exact List.nodup_dedup _
  · intro x hx
    exact List.mem_dedup.mpr (List.mem_map_of_mem kf hx)

lemma chunksAux_flatten {α : Type} (n : Nat) :
    ∀ (xs acc : List α) (k : Nat),
      (chunksAux n xs acc k).flatten = acc.reverse ++ xs := by
  intro xs
  induction xs with
  | nil => intro acc k; simp [chunksAux]
  | cons x t ih =>
    intro acc k
    cases k with
    | zero =>
      simp only [chunksAux, List.flatten_cons, ih]
      simp
    | succ k2 =>
      simp only [chunksAux, ih]
      simp

lemma chunksOf_flatten {α : Type} (n : Nat) (l : List α) :
    (chunksOf n l).flatten = l := by
  cases l with
  | nil => rfl
  | cons x xs =>
    unfold chunksOf
    rw [chunksAux_flatten]
    rfl

lemma chunksAux_ne_nil {α : Type} (n : Nat) :
    ∀ (xs acc : List α) (k : Nat), chunksAux n xs acc k ≠ [] := by
  intro xs
  induction xs with
  | nil => intro acc k; simp [chunksAux]
  | cons x t ih =>
    intro acc k
    cases k with
    | zero => simp [chunksAux]
    | succ k2 => exact ih (x :: acc) k2

lemma chunksOf_ne_nil {α : Type} (n : Nat) {l : List α} (h : l ≠ []) :
    chunksOf n l ≠ [] := by
  cases l with
  | nil => exact absurd rfl h
  | cons x xs => exact chunksAux_ne_nil n xs [x] (n - 1)

lemma filterMap_flatten {α β : Type} (g : α → Option β) (css : List (List α)) :
    css.flatten.filterMap g = (css.map (fun cs => cs.filterMap g)).flatten := by
  induction css with
  | nil => rfl
  | cons cs rest ih =>
    rw [List.flatten_cons, List.filterMap_append, List.map_cons,
      List.flatten_cons, ih]

lemma sum_flatMap {α : Type} {β : Type} [AddCommMonoid β] (g : α → List β)
    (l : List α) : (l.flatMap g).sum = (l.map (fun a => (g a).sum)).sum := by
  induction l with
  | nil => rfl
  | cons a t ih =>
    rw [List.flatMap_cons, List.sum_append, List.map_cons, List.sum_cons, ih]

lemma chunkTables_keySum (n : Nat) (gcols scols : List Col)
    (files : List (List RawRow)) (k : List Value) :
    keySum AggRow.key AggRow.sums k (chunkTables n gcols scols files).flatten =
      keySum (keyOf gcols) (sumsOf scols) k (cleanAll scols files) := by
  rw [keySum_flatten]
  unfold chunkTables
  rw [List.map_flatMap, sum_flatMap]
  have hfile : ∀ f : List RawRow,
      ((((chunksOf n f).map (fun ch =>
          groupbySum (keyOf gcols) (sumsOf scols)
            (ch.filterMap (cleanRow scols)))).map
        (fun cs => keySum AggRow.key AggRow.sums k cs)).sum) =
      keySum (keyOf gcols) (sumsOf scols) k (f.filterMap (cleanRow scols)) := by
    intro f
    rw [List.map_map]
    have hcong : (chunksOf n f).map
        ((fun cs => keySum AggRow.key AggRow.sums k cs) ∘
          (fun ch => groupbySum (keyOf gcols) (sumsOf scols)
            (ch.filterMap (cleanRow scols)))) =
        (chunksOf n f).map
          (fun ch => keySum (keyOf gcols) (sumsOf scols) k
            (ch.filterMap (cleanRow scols))) := by
      apply List.map_congr_left
      intro ch _
      exact keySum_groupbySum _ _ _ _
    rw [hcong]
    have h2 : (chunksOf n f).map
        (fun ch => keySum (keyOf gcols) (sumsOf scols) k
          (ch.filterMap (cleanRow scols))) =
        ((chunksOf n f).map (fun ch => ch.filterMap (cleanRow scols))).map
          (fun cs => keySum (keyOf gcols) (sumsOf scols) k cs) := by
      rw [List.map_map]
      rfl
    rw [h2, ← keySum_flatten, ← filterMap_flatten, chunksOf_flatten]
  have hcong2 : files.map (fun f =>
      ((((chunksOf n f).map (fun ch =>
          groupbySum (keyOf gcols) (sumsOf scols)
            (ch.filterMap (cleanRow scols)))).map
        (fun cs => keySum AggRow.key AggRow.sums k cs)).sum)) =
      files.map (fun f =>
        keySum (keyOf gcols) (sumsOf scols) k
          (f.filterMap (cleanRow scols))) := by
    apply List.map_congr_left
    intro f _
    exact hfile f
  rw [hcong2]
  have h3 : files.map (fun f =>
      keySum (keyOf gcols) (sumsOf scols) k (f.filterMap (cleanRow scols))) =
      (files.map (fun f => f.filterMap (cleanRow scols))).map
        (fun cs => keySum (keyOf gcols) (sumsOf scols) k cs) := by
    rw [List.map_map]
    rfl
  rw [h3, ← keySum_flatten]
  unfold cleanAll
  rw [filterMap_flatten]

lemma chunkTables_keys (n : Nat) (gcols scols : List Col)
    (files : List (List RawRow)) (k : List Value) :
    k ∈ ((chunkTables n gcols scols files).flatten.map AggRow.key) ↔
      k ∈ (cleanAll scols files).map (keyOf gcols) := by
  constructor
  · intro hk
    rcases List.mem_map.mp hk with ⟨a, haf, hak⟩
    rcases List.mem_flatten.mp haf with ⟨tbl, htbl, ha⟩
    rcases List.mem_flatMap.mp htbl with ⟨f, hf, htbl2⟩
    rcases List.mem_map.mp htbl2 with ⟨ch, hch, hgb⟩
    subst hgb
    rcases (mem_groupbySum.mp ha) with ⟨hkey, _⟩
    rcases List.mem_map.mp hkey with ⟨r, hr, hrk⟩
    rcases List.mem_filterMap.mp hr with ⟨x, hx, hclean⟩
    have hxf : x ∈ f := by
      have := List.mem_flatten.mpr ⟨ch, hch, hx⟩
      rwa [chunksOf_flatten] at this
    have hrall : r ∈ cleanAll scols files := by
      unfold cleanAll
      exact List.mem_filterMap.mpr
        ⟨x, List.mem_flatten.mpr ⟨f, hf, hxf⟩, hclean⟩
    rw [← hak, ← hrk]
    exact List.mem_map_of_mem (keyOf gcols) hrall
  · intro hk
    rcases List.mem_map.mp hk with ⟨r, hr, hrk⟩
    rcases List.mem_filterMap.mp hr with ⟨x, hx, hclean⟩
    rcases List.mem_flatten.mp hx with ⟨f, hf, hxf⟩
    have hxch : x ∈ (chunksOf n f).flatten := by
      rwa [chunksOf_flatten]
    rcases List.mem_flatten.mp hxch with ⟨ch, hch, hxin⟩
    have hrch : r ∈ ch.filterMap (cleanRow scols) :=
      List.mem_filterMap.mpr ⟨x, hxin, hclean⟩
    have hkmem : k ∈ (ch.filterMap (cleanRow scols)).map (keyOf gcols) := by
      rw [← hrk]
      exact List.mem_map_of_mem (keyOf gcols) hrch
    have hagg : (AggRow.mk k
        (keySum (keyOf gcols) (sumsOf scols) k (ch.filterMap (cleanRow scols)))) ∈
        groupbySum (keyOf gcols) (sumsOf scols) (ch.filterMap (cleanRow scols)) :=
      mem_groupbySum.mpr ⟨hkmem, rfl⟩
    have htbl : groupbySum (keyOf gcols) (sumsOf scols)
        (ch.filterMap (cleanRow scols)) ∈ chunkTables n gcols scols files := by
      unfold chunkTables
      exact List.mem_flatMap.mpr ⟨f, hf, List.mem_map_of_mem _ hch⟩
    exact List.mem_map.mpr
      ⟨_, List.mem_flatten.mpr ⟨_, htbl, hagg⟩, rfl⟩

lemma aggregate_folder_ok_mem {files : List (List RawRow)}
    {gcols scols : List Col} {n : Nat} {t : List (AggRow scols.length)}
    (ht : aggregate_folder files gcols scols n = Except.ok t) :
    ∀ a, a ∈ t ↔
      a.key ∈ (cleanAll scols files).map (keyOf gcols) ∧
        a.sums = keySum (keyOf gcols) (sumsOf scols) a.key (cleanAll scols files) := by
  unfold aggregate_folder at ht
  by_cases he : (chunkTables n gcols scols files).isEmpty
  · rw [if_pos he] at ht; cases ht
  · rw [if_neg he] at ht
    have htt := Except.ok.inj ht
    subst htt
    intro a
    rw [mem_groupbySum, chunkTables_keys, chunkTables_keySum]

lemma keySum_perm {α : Type} {m : Nat} (kf : α → List Value)
    (vf : α → Fin m → ℚ) (k : List Value) {xs ys : List α} (h : xs.Perm ys) :
    keySum kf vf k xs = keySum kf vf k ys := by
  unfold keySum
  exact ((h.filter _).map vf).sum_eq

lemma groupbySum_perm_setEq {α : Type} {m : Nat} (kf : α → List Value)
    (vf : α → Fin m → ℚ) {xs ys : List α} (h : xs.Perm ys) :
    aggSetEq (groupbySum kf vf xs) (groupbySum kf vf ys) := by
  intro a
  rw [mem_groupbySum, mem_groupbySum, keySum_perm kf vf a.key h,
    (h.map kf).mem_iff]

lemma cleanAll_perm (scols : List Col) {files files2 : List (List RawRow)}
    (h : files.Perm files2) :
    (cleanAll scols files).Perm (cleanAll scols files2) := by
  unfold cleanAll
  exact h.flatten.filterMap _

lemma mem_leftJoin {α β : Type} {ls : List α} {rs : List β}
    {lk : α → List Value} {rk : β → List Value} {l : α} {o : Option β}
    (h : (l, o) ∈ leftJoin ls rs lk rk) :
    l ∈ ls ∧ (o = none ∨ ∃ r, o = some r ∧ r ∈ rs ∧ rk r = lk l) := by
  unfold leftJoin at h
  rcases List.mem_flatMap.mp h with ⟨l2, hl2, hp⟩
  cases hm : rs.filter (fun r => decide (rk r = lk l2)) with
  | nil =>
    rw [hm] at hp
    simp only [List.mem_singleton, Prod.mk.injEq] at hp
    rcases hp with ⟨hl, ho⟩
    rw [hl]
    exact ⟨hl2, Or.inl ho⟩
  | cons r ms =>
    rw [hm] at hp
    simp only [List.mem_map, Prod.mk.injEq] at hp
    rcases hp with ⟨r2, hr2, hl, ho⟩
    rw [← hl]
    have hr2f : r2 ∈ rs.filter (fun r => decide (rk r = lk l2)) := by
      rw [hm]; exact hr2
    rcases List.mem_filter.mp hr2f with ⟨hrs, hkey⟩
    simp only [decide_eq_true_eq] at hkey
    exact ⟨hl2, Or.inr ⟨r2, ho.symm, hrs, hkey⟩⟩

lemma filter_key_single {β : Type} {rs : List β} {rk : β → List Value}
    (h : (rs.map rk).Nodup) (k : List Value) :
    rs.filter (fun r => decide (rk r = k)) =
      match rs.find? (fun r => decide (rk r = k)) with
      | none => []
      | some r => [r] := by
  induction rs with
  | nil => rfl
  | cons r t ih =>
    rcases List.nodup_cons.mp h with ⟨hnot, ht⟩
    by_cases hk : rk r = k
    · rw [List.filter_cons_of_pos (by simp [hk]),
        List.find?_cons_of_pos _ (by simp [hk])]
      have hnil : t.filter (fun r2 => decide (rk r2 = k)) = [] := by
        rw [List.filter_eq_nil_iff]
        intro x hx
        simp only [decide_eq_true_eq]
        intro hxk
        exact hnot (by rw [hk, ← hxk]; exact List.mem_map_of_mem rk hx)
      rw [hnil]
    · rw [List.filter_cons_of_neg (by simp [hk]),
        List.find?_cons_of_neg _ (by simp [hk])]
      exact ih ht

lemma leftJoin_eq_map {α β : Type} (ls : List α) (rs : List β)
    (lk : α → List Value) (rk : β → List Value) (h : (rs.map rk).Nodup) :
    leftJoin ls rs lk rk =
      ls.map (fun l => (l, rs.find? (fun r => decide (rk r = lk l)))) := by
  unfold leftJoin
  induction ls with
  | nil => rfl
  | cons a t ih =>
    rw [List.flatMap_cons, List.map_cons, ih]
    rw [filter_key_single h (lk a)]
    cases hf : rs.find? (fun r => decide (rk r = lk a)) with
    | none => rfl
    | some r => rfl

lemma mem_buildMaster_shape {e : List (AggRow 3)} {d b : List (AggRow 2)}
    {mrow : MasterRow} (h : mrow ∈ buildMaster e d b) :
    ∃ a dm bm, a ∈ e ∧ mrow = deriveMaster (addTotal a) dm bm ∧
      (dm = none ∨ ∃ ar ∈ d, dm = some (toUpd ar) ∧ ar.key = a.key) ∧
      (bm = none ∨ ∃ ar ∈ b, bm = some (toUpd ar) ∧ ar.key = a.key) := by
  unfold buildMaster at h
  rcases List.mem_map.mp h with ⟨p, hp, hm⟩
  obtain ⟨p1, ob⟩ := p
  obtain ⟨er, od⟩ := p1
  rcases mem_leftJoin hp with ⟨hp1, hob⟩
  rcases mem_leftJoin hp1 with ⟨her, hod⟩
  rcases List.mem_map.mp her with ⟨a, ha, hat⟩
  subst hat
  refine ⟨a, od, ob, ha, hm.symm, ?_, ?_⟩
  · rcases hod with hnone | ⟨u, hu, humem, hukey⟩
    · exact Or.inl hnone
    · rcases List.mem_map.mp humem with ⟨ar, har, hau⟩
      subst hau
      exact Or.inr ⟨ar, har, hu, hukey⟩
  · rcases hob with hnone | ⟨u, hu, humem, hukey⟩
    · exact Or.inl hnone
    · rcases List.mem_map.mp humem with ⟨ar, har, hau⟩
      subst hau
      exact Or.inr ⟨ar, har, hu, hukey⟩

lemma addTotal_total (a : AggRow 3) :
    (addTotal a).total_enrolments =
      (addTotal a).age_0_5 + (addTotal a).age_5_17 + (addTotal a).age_18_greater := rfl

lemma sum_map_flatten {α β : Type} [AddCommMonoid β] (f : α → β)
    (css : List (List α)) :
    (css.flatten.map f).sum = (css.map (fun cs => (cs.map f).sum)).sum := by
  induction css with
  | nil => rfl
  | cons cs rest ih =>
    rw [List.flatten_cons, List.map_append, List.sum_append, List.map_cons,
      List.sum_cons, ih]

lemma pi_sum_apply {m : Nat} (l : List (Fin m → ℚ)) (i : Fin m) :
    l.sum i = (l.map (fun v => v i)).sum := by
  induction l with
  | nil => rfl
  | cons v rest ih =>
    rw [List.sum_cons, List.map_cons, List.sum_cons, Pi.add_apply, ih]

lemma chunkTables_sums_total (n : Nat) (gcols scols : List Col)
    (files : List (List RawRow)) :
    ((chunkTables n gcols scols files).flatten.map AggRow.sums).sum =
      ((cleanAll scols files).map (sumsOf scols)).sum := by
  rw [sum_map_flatten]
  unfold chunkTables
  rw [List.map_flatMap, sum_flatMap]
  have hfile : ∀ f : List RawRow,
      ((((chunksOf n f).map (fun ch =>
          groupbySum (keyOf gcols) (sumsOf scols)
            (ch.filterMap (cleanRow scols)))).map
        (fun cs => (cs.map AggRow.sums).sum)).sum) =
      ((f.filterMap (cleanRow scols)).map (sumsOf scols)).sum := by
    intro f
    rw [List.map_map]
    have hcong : (chunksOf n f).map
        ((fun cs => (cs.map AggRow.sums).sum) ∘
          (fun ch => groupbySum (keyOf gcols) (sumsOf scols)
            (ch.filterMap (cleanRow scols)))) =
        (chunksOf n f).map
          (fun ch => ((ch.filterMap (cleanRow scols)).map (sumsOf scols)).sum) := by
      apply List.map_congr_left
      intro ch _
      exact sum_sums_groupbySum _ _ _
    rw [hcong]
    have h2 : (chunksOf n f).map
        (fun ch => ((ch.filterMap (cleanRow scols)).map (sumsOf scols)).sum) =
        ((chunksOf n f).map (fun ch => ch.filterMap (cleanRow scols))).map
          (fun cs => (cs.map (sumsOf scols)).sum) := by
      rw [List.map_map]
      rfl
    rw [h2, ← sum_map_flatten, ← filterMap_flatten, chunksOf_flatten]
  have hcong2 : files.map (fun f =>
      ((((chunksOf n f).map (fun ch =>
          groupbySum (keyOf gcols) (sumsOf scols)
            (ch.filterMap (cleanRow scols)))).map
        (fun cs => (cs.map AggRow.sums).sum)).sum)) =
      files.map (fun f =>
        ((f.filterMap (cleanRow scols)).map (sumsOf scols)).sum) := by
    apply List.map_congr_left
    intro f _
    exact hfile f
  rw [hcong2]
  have h3 : files.map (fun f =>
      ((f.filterMap (cleanRow scols)).map (sumsOf scols)).sum) =
      (files.map (fun f => f.filterMap (cleanRow scols))).map
        (fun cs => (cs.map (sumsOf scols)).sum) := by
    rw [List.map_map]
    rfl
  rw [h3, ← sum_map_flatten]
  unfold cleanAll
  rw [filterMap_flatten]

lemma chunkTables_ne_nil {n : Nat} {gcols scols : List Col}
    {files : List (List RawRow)} (hf : ∃ f ∈ files, f ≠ []) :
    chunkTables n gcols scols files ≠ [] := by
  rcases hf with ⟨f, hfmem, hfne⟩
  rcases List.exists_mem_of_ne_nil _ (chunksOf_ne_nil n hfne) with ⟨ch, hch⟩
  intro hnil
  have hmem : groupbySum (keyOf gcols) (sumsOf scols)
      (ch.filterMap (cleanRow scols)) ∈ chunkTables n gcols scols files := by
    unfold chunkTables
    exact List.mem_flatMap.mpr ⟨f, hfmem, List.mem_map_of_mem _ hch⟩
  rw [hnil] at hmem
  exact List.not_mem_nil _ hmem

lemma aggregate_folder_ok_of_ne {files : List (List RawRow)}
    {gcols scols : List Col} {n : Nat}
    (h : chunkTables n gcols scols files ≠ []) :
    aggregate_folder files gcols scols n = Except.ok
      (groupbySum AggRow.key AggRow.sums
        (chunkTables n gcols scols files).flatten) := by
  unfold aggregate_folder
  rw [if_neg (fun hc => h (List.isEmpty_iff.mp hc))]

lemma aggregate_folder_ok_shape {files : List (List RawRow)}
    {gcols scols : List Col} {n : Nat} {t : List (AggRow scols.length)}
    (ht : aggregate_folder files gcols scols n = Except.ok t) :
    t = groupbySum AggRow.key AggRow.sums
      (chunkTables n gcols scols files).flatten := by
  unfold aggregate_folder at ht
  by_cases he : (chunkTables n gcols scols files).isEmpty
  · rw [if_pos he] at ht; cases ht
  · rw [if_neg he] at ht
    exact (Except.ok.inj ht).symm

lemma cleanRow_none_of_state {scols : List Col} {r : RawRow}
    (h : lookupState (normalizeO (r stateCol)) = none) :
    cleanRow scols r = none := by
  unfold cleanRow
  cases hd : parseDateO (r dateCol) with
  | none => rfl
  | some dt => rw [h]

/-- A sample group key used by the concrete master-table examples. -/
def kX : List Value := [Value.vstr (str2cp "k")]

/-- Enrollment aggregate row with age bands 10 / 20 / 70. -/
def eRow10 : AggRow 3 :=
  ⟨kX, fun i => match i with | 0 => 10 | 1 => 20 | 2 => 70⟩

/-- Enrollment aggregate row with all-zero age bands. -/
def eRow0 : AggRow 3 := ⟨kX, fun _ => 0⟩

/-- Enrollment aggregate row whose age bands sum to one half. -/
def eRowHalf : AggRow 3 :=
  ⟨kX, fun i => match i with | 0 => 1 / 2 | 1 => 0 | 2 => 0⟩

/-- Update aggregate row contributing a total update count of 30. -/
def dRow30 : AggRow 2 := ⟨kX, fun i => match i with | 0 => 15 | 1 => 15⟩

/-- Update aggregate row contributing a total update count of 60. -/
def dRow60 : AggRow 2 := ⟨kX, fun i => match i with | 0 => 30 | 1 => 30⟩

lemma buildMaster_single_d (e1 : AggRow 3) (d1 : AggRow 2)
    (hd : d1.key = e1.key) :
    buildMaster [e1] [d1] [] =
      [deriveMaster (addTotal e1) (some (toUpd d1)) none] := by
  unfold buildMaster leftJoin
  simp only [List.map_cons, List.map_nil, List.flatMap_cons, List.flatMap_nil]
  rw [List.filter_cons_of_pos (by simp [toUpd, addTotal, hd]), List.filter_nil]
  simp

lemma buildMaster_single_none (e1 : AggRow 3) :
    buildMaster [e1] [] [] = [deriveMaster (addTotal e1) none none] := by
  unfold buildMaster leftJoin
  simp


/-- C1: for every dataset folder, every choice of group and sum columns and
every positive chunk size, the table produced by the two-phase pipeline
(per-chunk group-by-sum, then concatenate and re-group-sum) is numerically
identical, as a set of rows, to grouping and summing the whole cleaned
dataset in one pass; the result is independent of the chunk size and of
the order in which shard files are processed. -/
theorem C1_two_phase_equals_one_pass
    (files files2 : List (List RawRow)) (gcols scols : List Col)
    (n n2 : Nat) (t t2 : List (AggRow scols.length))
    (hn : 0 < n) (hn2 : 0 < n2) (hperm : files.Perm files2)
    (ht : aggregate_folder files gcols scols n = Except.ok t)
    (ht2 : aggregate_folder files2 gcols scols n2 = Except.ok t2) :
    aggSetEq t (onePass files gcols scols) ∧ aggSetEq t t2 := by
  have h1 := aggregate_folder_ok_mem ht
  have h2 := aggregate_folder_ok_mem ht2
  have hone : ∀ a : AggRow scols.length, a ∈ onePass files gcols scols ↔
      a.key ∈ (cleanAll scols files).map (keyOf gcols) ∧
      a.sums = keySum (keyOf gcols) (sumsOf scols) a.key (cleanAll scols files) := by
    intro a
    unfold onePass
    exact mem_groupbySum
  refine ⟨fun a => by rw [h1 a, hone a], ?_⟩
  intro a
  rw [h1 a, h2 a]
  have hcperm := cleanAll_perm scols hperm
  rw [keySum_perm (keyOf gcols) (sumsOf scols) a.key hcperm,
    (hcperm.map (keyOf gcols)).mem_iff]

/-- C2: in an aggregate table returned by `aggregate_folder` there is
exactly one row per distinct group key, each metric of a row is the exact
sum of the corresponding values over all cleaned records sharing that key
across all shards, and the total of any summed column over all output
rows equals its total over all cleaned input records. -/
theorem C2_aggregate_row_exact_sums
    (files : List (List RawRow)) (gcols scols : List Col) (n : Nat)
    (t : List (AggRow scols.length)) (hn : 0 < n)
    (ht : aggregate_folder files gcols scols n = Except.ok t) :
    (t.map AggRow.key).Nodup ∧
    (∀ a ∈ t, a.sums =
      keySum (keyOf gcols) (sumsOf scols) a.key (cleanAll scols files)) ∧
    (∀ i : Fin scols.length,
      (t.map (fun a => a.sums i)).sum =
        ((cleanAll scols files).map (fun r => sumsOf scols r i)).sum) := by
  have hshape := aggregate_folder_ok_shape ht
  refine ⟨?_, ?_, ?_⟩
  · rw [hshape]
    exact nodup_key_groupbySum _ _ _
  · intro a ha
    exact ((aggregate_folder_ok_mem ht a).mp ha).2
  · intro i
    have hv : (t.map AggRow.sums).sum =
        ((cleanAll scols files).map (sumsOf scols)).sum := by
      rw [hshape, sum_sums_groupbySum, chunkTables_sums_total]
    have e1 : (t.map (fun a => a.sums i)).sum = (t.map AggRow.sums).sum i := by
      rw [pi_sum_apply, List.map_map]
      rfl
    have e2 : ((cleanAll scols files).map (fun r => sumsOf scols r i)).sum =
        ((cleanAll scols files).map (sumsOf scols)).sum i := by
      rw [pi_sum_apply, List.map_map]
      rfl
    rw [e1, e2, hv]

/-- C7: when the dataset folder contains zero CSV shard files the run
aborts with the `pd.concat` error and produces no aggregate table, not
even an empty one. -/
theorem C7_zero_shards_error (gcols scols : List Col) (n : Nat) :
    aggregate_folder [] gcols scols n = Except.error concatErr := rfl

/-- C9: `normalize_text` is idempotent: normalizing an already-normalized
string returns it unchanged. -/
theorem C9_normalize_text_idempotent (s : List Nat) :
    normalize_text (normalize_text s) = normalize_text s :=
  normalize_text_eq_self (normStr_normalize_text s)

/-- C10: when the folder holds at least one nonempty CSV shard but every
row of every chunk is dropped by cleaning, `aggregate_folder` does not
abort: it returns normally with an aggregate table of zero rows. -/
theorem C10_fully_dropped_returns_empty
    (files : List (List RawRow)) (gcols scols : List Col) (n : Nat)
    (hn : 0 < n) (hne : ∃ f ∈ files, f ≠ [])
    (hdrop : ∀ f ∈ files, ∀ r ∈ f, cleanRow scols r = none) :
    aggregate_folder files gcols scols n = Except.ok [] := by
  have hflat : (chunkTables n gcols scols files).flatten = [] := by
    rw [List.eq_nil_iff_forall_not_mem]
    intro a ha
    rcases List.mem_flatten.mp ha with ⟨tbl, htbl, hatbl⟩
    unfold chunkTables at htbl
    rcases List.mem_flatMap.mp htbl with ⟨f, hf, htbl2⟩
    rcases List.mem_map.mp htbl2 with ⟨ch, hch, hgb⟩
    subst hgb
    have hnil : ch.filterMap (cleanRow scols) = [] := by
      rw [List.filterMap_eq_nil_iff]
      intro x hx
      apply hdrop f hf
      have hxf := List.mem_flatten.mpr ⟨ch, hch, hx⟩
      rwa [chunksOf_flatten] at hxf
    rw [hnil] at hatbl
    exact List.not_mem_nil a hatbl
  rw [aggregate_folder_ok_of_ne (chunkTables_ne_nil hne), hflat]
  rfl

/-- C4: state resolution is an exact lookup: every variant present in the
canonical mapping yields its documented canonical form, every other
normalized string (such as normalized Xanadu) is unresolved, a record
whose state does not resolve is dropped by the cleaning stage, and such
records contribute nothing to the cleaned dataset feeding every
aggregate. -/
theorem C4_state_resolution_exact :
    (∀ p ∈ STATE_MASTER, lookupState p.1 = some p.2) ∧
    (∀ s : List Nat, s ∉ STATE_MASTER.map Prod.fst → lookupState s = none) ∧
    (lookupState (normalizeO (some (str2cp "Xanadu"))) = none) ∧
    (∀ (scols : List Col) (r : RawRow),
      lookupState (normalizeO (r stateCol)) = none → cleanRow scols r = none) ∧
    (∀ (scols : List Col) (rows : List RawRow),
      rows.filterMap (cleanRow scols) =
        (rows.filter
          (fun r => (lookupState (normalizeO (r stateCol))).isSome)).filterMap
          (cleanRow scols)) := by
  refine ⟨by decide, ?_, by decide, ?_, ?_⟩
  · intro s hs
    unfold lookupState
    rw [List.find?_eq_none.mpr ?_]
    · rfl
    · intro p hp
      simp only [decide_eq_true_eq]
      intro hps
      exact hs (by rw [← hps]; exact List.mem_map_of_mem Prod.fst hp)
  · intro scols r h
    exact cleanRow_none_of_state h
  · intro scols rows
    induction rows with
    | nil => rfl
    | cons r rest ih =>
      by_cases hs : (lookupState (normalizeO (r stateCol))).isSome
      · rw [List.filter_cons_of_pos (by simpa using hs),
          List.filterMap_cons, List.filterMap_cons, ih]
      · have hnone : lookupState (normalizeO (r stateCol)) = none :=
          Option.not_isSome_iff_eq_none.mp hs
        rw [List.filter_cons_of_neg (by simpa using hs),
          List.filterMap_cons, cleanRow_none_of_state hnone]
        exact ih

/-- A raw row whose state text is the unresolvable Xanadu. -/
def xanRow : RawRow := fun c =>
  if c = stateCol then some (str2cp "Xanadu") else some (str2cp "01-01-2020")

/-- C4 witness: the Xanadu record is dropped by the cleaning stage. -/
theorem C4_state_resolution_witness : cleanRow [] xanRow = none :=
  C4_state_resolution_exact.2.2.2.1 [] xanRow (by decide)

/-- The designated numeric column used by the concrete cleaning
examples. -/
def numCol : Col := str2cp "age_0_5"

/-- A raw row with a valid date and state whose numeric cell holds the
text -1. -/
def negRow : RawRow := fun c =>
  if c = stateCol then some (str2cp "bihar")
  else if c = dateCol then some (str2cp "01-01-2020")
  else some (str2cp "-1")

/-- The cleaned form of `negRow`. -/
def crNeg : CRow := fun c =>
  if c ∈ [numCol] then
    Value.vnum (coerceNum (midRow negRow 20200101 (str2cp "Bihar") c))
  else midRow negRow 20200101 (str2cp "Bihar") c

lemma cleanRow_negRow : cleanRow [numCol] negRow = some crNeg := by
  unfold cleanRow
  rw [(by decide : parseDateO (negRow dateCol) = some 20200101),
    (by decide : lookupState (normalizeO (negRow stateCol)) =
      some (str2cp "Bihar"))]
  rfl

lemma parseNumQ_neg1 : parseNumQ (str2cp "-1") = some (-1) := by
  have h : str2cp "-1" = [45, 49] := by decide
  rw [h]
  norm_num [parseNumQ, splitCp, digitsVal, isDigitCp]

lemma crNeg_numCol : crNeg numCol = Value.vnum (-1) := by
  unfold crNeg
  rw [if_pos (List.mem_singleton_self numCol)]
  unfold midRow
  rw [if_neg (by decide), if_neg (by decide), if_neg (by decide),
    (by decide : negRow numCol = some (str2cp "-1"))]
  simp [rawVal, coerceNum, parseNumQ_neg1]

/-- A raw row with a valid date and state whose numeric cell holds the
infinity literal inf. -/
def infRow : RawRow := fun c =>
  if c = stateCol then some (str2cp "bihar")
  else if c = dateCol then some (str2cp "01-01-2020")
  else some (str2cp "inf")

/-- The cleaned form of `infRow` under the finite-fragment pipeline. -/
def crInf : CRow := fun c =>
  if c ∈ [numCol] then
    Value.vnum (coerceNum (midRow infRow 20200101 (str2cp "Bihar") c))
  else midRow infRow 20200101 (str2cp "Bihar") c

lemma cleanRow_infRow : cleanRow [numCol] infRow = some crInf := by
  unfold cleanRow
  rw [(by decide : parseDateO (infRow dateCol) = some 20200101),
    (by decide : lookupState (normalizeO (infRow stateCol)) =
      some (str2cp "Bihar"))]
  rfl

/-- C6 counterexample: a record whose numeric cell holds the text -1
cleans successfully to the negative value -1, so cleaned sum-column
values are not always non-negative; and a record whose numeric cell
holds the text inf also survives cleaning while the numeric coercion
turns that cell into positive infinity, so they are not always finite
either. -/
theorem C6_nonneg_finite_counterexample :
    (∃ cr, cleanRow [numCol] negRow = some cr ∧ cr numCol = Value.vnum (-1) ∧
      ¬(0 ≤ (-1 : ℚ))) ∧
    (∃ cr, cleanRow [numCol] infRow = some cr) ∧
    toNumOrZeroExt (infRow numCol) = ExtNum.posInf :=
  ⟨⟨crNeg, cleanRow_negRow, crNeg_numCol, by norm_num⟩,
    ⟨crInf, cleanRow_infRow⟩, by decide⟩

/-- C6 amended: after cleaning, every designated sum column of a cleaned
record holds a numeric value; a missing cell and an unparseable cell
coerce to zero rather than raising an error; on text that denotes no
infinity the full coercion agrees with the finite-fragment parser, while
the signed infinity literals coerce to values that survive the
zero-fill — so the cleaned value is guaranteed numeric, but neither
non-negative nor finite. -/
theorem C6_numeric_coercion_amended :
    (∀ (scols : List Col) (r : RawRow) (cr : CRow),
      cleanRow scols r = some cr → ∀ c ∈ scols, ∃ q : ℚ, cr c = Value.vnum q) ∧
    toNumOrZeroExt none = ExtNum.finite 0 ∧
    (∀ s : List Nat, parseNumExt s = none →
      toNumOrZeroExt (some s) = ExtNum.finite 0) ∧
    (∀ s : List Nat, parseInfQ s = none →
      parseNumExt s = (parseNumQ s).map ExtNum.finite) ∧
    toNumOrZeroExt (some (str2cp "inf")) = ExtNum.posInf ∧
    toNumOrZeroExt (some (str2cp "-inf")) = ExtNum.negInf ∧
    toNumOrZeroExt (some (str2cp "Infinity")) = ExtNum.posInf := by
  refine ⟨?_, rfl, ?_, ?_, by decide, by decide, by decide⟩
  · intro scols r cr h c hc
    unfold cleanRow at h
    cases hd : parseDateO (r dateCol) with
    | none => rw [hd] at h; cases h
    | some dt =>
      rw [hd] at h
      cases hst : lookupState (normalizeO (r stateCol)) with
      | none => rw [hst] at h; cases h
      | some st =>
        rw [hst] at h
        have hcr := Option.some.inj h
        refine ⟨coerceNum (midRow r dt st c), ?_⟩
        rw [← hcr]
        simp only [if_pos hc]
  · intro s hs
    show (parseNumExt s).getD (ExtNum.finite 0) = ExtNum.finite 0
    rw [hs]
    rfl
  · intro s hs
    unfold parseNumExt
    rw [hs]

/-- C6 witness: the sum column of the concrete cleaned record holds a
rational number. -/
theorem C6_numeric_coercion_witness : ∃ q : ℚ, crNeg numCol = Value.vnum q :=
  C6_numeric_coercion_amended.1 [numCol] negRow crNeg cleanRow_negRow numCol
    (List.mem_singleton_self numCol)

/-- C8 counterexample: a missing value stringifies to the text nan, not
to the empty-after-trim string. -/
theorem C8_missing_becomes_empty_counterexample :
    normalizeO none = str2cp "nan" ∧ normalizeO none ≠ [] :=
  ⟨by decide, by decide⟩

/-- C8 amended: a missing value stringifies to the text nan, which fails
state canonicalization, and a record with a missing state cell is dropped
by the cleaning stage. -/
theorem C8_missing_state_dropped_amended :
    normalizeO none = str2cp "nan" ∧
    lookupState (normalizeO none) = none ∧
    (∀ (scols : List Col) (r : RawRow), r stateCol = none →
      cleanRow scols r = none) := by
  refine ⟨by decide, by decide, ?_⟩
  intro scols r h
  apply cleanRow_none_of_state
  rw [h]
  decide

/-- A raw row all of whose cells are missing. -/
def noStateRow : RawRow := fun _ => none

/-- C8 witness: the record with a missing state cell is dropped. -/
theorem C8_missing_state_witness : cleanRow [] noStateRow = none :=
  C8_missing_state_dropped_amended.2.2 [] noStateRow rfl

/-- C3 counterexample: a master row whose age bands sum to one half keeps
the total one half, while flooring at 1 would give 1 — `replace 0 1` is
not a floor. -/
theorem C3_total_floor_counterexample :
    buildMaster [eRowHalf] [] [] = [deriveMaster (addTotal eRowHalf) none none] ∧
    ¬((deriveMaster (addTotal eRowHalf) none none).total_enrolments =
      max 1 ((deriveMaster (addTotal eRowHalf) none none).age_0_5 +
        (deriveMaster (addTotal eRowHalf) none none).age_5_17 +
        (deriveMaster (addTotal eRowHalf) none none).age_18_greater)) :=
  ⟨buildMaster_single_none eRowHalf, by norm_num [deriveMaster, addTotal, eRowHalf]⟩

/-- C3 amended: for every master row, `total_enrolments` is the sum of
the three age bands with an exact zero replaced by 1, `update_burden` is
the sum of the four update metrics, `child_ratio` divides `age_0_5` by
the adjusted total, and `policy_alert` holds exactly when the burden
exceeds half the adjusted total; the concrete rows with age bands
10/20/70 and update sums 30 and 60, and the all-zero enrollment row,
behave as documented. -/
theorem C3_derived_fields_amended :
    (∀ (e : List (AggRow 3)) (d b : List (AggRow 2)),
      ∀ mrow ∈ buildMaster e d b,
        mrow.total_enrolments =
          (if mrow.age_0_5 + mrow.age_5_17 + mrow.age_18_greater = 0 then 1
           else mrow.age_0_5 + mrow.age_5_17 + mrow.age_18_greater) ∧
        mrow.update_burden =
          mrow.demo_5_17 + mrow.demo_18_plus + mrow.bio_5_17 + mrow.bio_18_plus ∧
        mrow.child_ratio = mrow.age_0_5 / mrow.total_enrolments ∧
        (mrow.policy_alert = true ↔
          mrow.update_burden > (1 / 2 : ℚ) * mrow.total_enrolments)) ∧
    buildMaster [eRow10] [dRow30] [] =
      [deriveMaster (addTotal eRow10) (some (toUpd dRow30)) none] ∧
    (deriveMaster (addTotal eRow10) (some (toUpd dRow30)) none).total_enrolments = 100 ∧
    (deriveMaster (addTotal eRow10) (some (toUpd dRow30)) none).update_burden = 30 ∧
    (deriveMaster (addTotal eRow10) (some (toUpd dRow30)) none).child_ratio = 1 / 10 ∧
    (deriveMaster (addTotal eRow10) (some (toUpd dRow30)) none).policy_alert = false ∧
    (deriveMaster (addTotal eRow10) (some (toUpd dRow60)) none).policy_alert = true ∧
    buildMaster [eRow0] [] [] = [deriveMaster (addTotal eRow0) none none] ∧
    (deriveMaster (addTotal eRow0) none none).total_enrolments = 1 ∧
    (deriveMaster (addTotal eRow0) none none).child_ratio = 0 := by
  refine ⟨?_, buildMaster_single_d eRow10 dRow30 rfl, ?_, ?_, ?_, ?_, ?_,
    buildMaster_single_none eRow0, ?_, ?_⟩
  · intro e d b mrow hm
    rcases mem_buildMaster_shape hm with ⟨a, dm, bm, ha, rfl, hdm, hbm⟩
    refine ⟨?_, ?_, ?_, ?_⟩ <;>
      simp [deriveMaster, addTotal, decide_eq_true_eq]
  · norm_num [deriveMaster, addTotal, toUpd, eRow10, dRow30]
  · norm_num [deriveMaster, addTotal, toUpd, eRow10, dRow30]
  · norm_num [deriveMaster, addTotal, toUpd, eRow10, dRow30]
  · norm_num [deriveMaster, addTotal, toUpd, eRow10, dRow30]
  · norm_num [deriveMaster, addTotal, toUpd, eRow10, dRow60]
  · norm_num [deriveMaster, addTotal, eRow0]
  · norm_num [deriveMaster, addTotal, eRow0]

/-- C3 witness: the concrete master row satisfies the update-burden
equation. -/
theorem C3_derived_fields_witness :
    (deriveMaster (addTotal eRow10) (some (toUpd dRow30)) none).update_burden =
      (deriveMaster (addTotal eRow10) (some (toUpd dRow30)) none).demo_5_17 +
      (deriveMaster (addTotal eRow10) (some (toUpd dRow30)) none).demo_18_plus +
      (deriveMaster (addTotal eRow10) (some (toUpd dRow30)) none).bio_5_17 +
      (deriveMaster (addTotal eRow10) (some (toUpd dRow30)) none).bio_18_plus := by
  have h := C3_derived_fields_amended
  exact (h.1 [eRow10] [dRow30] [] _
    (by rw [h.2.1]; exact List.mem_singleton_self _)).2.1

/-- C5: the master table carries exactly the group keys of the enrollment
aggregate: its key column equals the enrollment key column, an enrollment
key with no matching demographic or biometric row gets zero-filled update
cells, and a key absent from the enrollment aggregate is absent from the
master table. -/
theorem C5_master_keys_enrollment
    (e : List (AggRow 3)) (d b : List (AggRow 2))
    (hd : (d.map AggRow.key).Nodup) (hb : (b.map AggRow.key).Nodup) :
    ((buildMaster e d b).map MasterRow.key = e.map AggRow.key) ∧
    (∀ mrow ∈ buildMaster e d b,
      (mrow.key ∉ d.map AggRow.key →
        mrow.demo_5_17 = 0 ∧ mrow.demo_18_plus = 0) ∧
      (mrow.key ∉ b.map AggRow.key →
        mrow.bio_5_17 = 0 ∧ mrow.bio_18_plus = 0)) ∧
    (∀ k, k ∉ e.map AggRow.key → k ∉ (buildMaster e d b).map MasterRow.key) := by
  have hd2 : ((d.map toUpd).map UpdRow.key).Nodup := by
    rw [List.map_map]
    exact hd
  have hb2 : ((b.map toUpd).map UpdRow.key).Nodup := by
    rw [List.map_map]
    exact hb
  have hkeys : (buildMaster e d b).map MasterRow.key = e.map AggRow.key := by
    show (List.map (fun p => deriveMaster p.1.1 p.1.2 p.2)
      (leftJoin (leftJoin (e.map addTotal) (d.map toUpd) EnrolRow.key UpdRow.key)
        (b.map toUpd) (fun p => p.1.key) UpdRow.key)).map MasterRow.key =
      e.map AggRow.key
    rw [leftJoin_eq_map _ _ _ _ hd2, leftJoin_eq_map _ _ _ _ hb2,
      List.map_map, List.map_map, List.map_map, List.map_map]
    apply List.map_congr_left
    intro a _
    rfl
  refine ⟨hkeys, ?_, ?_⟩
  · intro mrow hm
    rcases mem_buildMaster_shape hm with ⟨a, dm, bm, ha, rfl, hdm, hbm⟩
    constructor
    · intro hnot
      have hdnone : dm = none := by
        rcases hdm with h | ⟨ar, har, hsome, hkey⟩
        · exact h
        · exfalso
          apply hnot
          show (deriveMaster (addTotal a) dm bm).key ∈ d.map AggRow.key
          have hk : (deriveMaster (addTotal a) dm bm).key = a.key := rfl
          rw [hk, ← hkey]
          exact List.mem_map_of_mem AggRow.key har
      subst hdnone
      exact ⟨rfl, rfl⟩
    · intro hnot
      have hbnone : bm = none := by
        rcases hbm with h | ⟨ar, har, hsome, hkey⟩
        · exact h
        · exfalso
          apply hnot
          show (deriveMaster (addTotal a) dm bm).key ∈ b.map AggRow.key
          have hk : (deriveMaster (addTotal a) dm bm).key = a.key := rfl
          rw [hk, ← hkey]
          exact List.mem_map_of_mem AggRow.key har
      subst hbnone
      exact ⟨rfl, rfl⟩
  · intro k hk hmem
    rw [hkeys] at hmem
    exact hk hmem

/-- C5 witness: the concrete master table has exactly the enrollment
keys. -/
theorem C5_master_keys_witness :
    (buildMaster [eRow10] [dRow30] []).map MasterRow.key =
      [eRow10].map AggRow.key :=
  (C5_master_keys_enrollment [eRow10] [dRow30] [] (by simp) (by simp)).1

/-- A clean sample shard row for Bihar. -/
def rowA : RawRow := fun c =>
  if c = dateCol then some (str2cp "01-01-2020")
  else if c = stateCol then some (str2cp "Bihar")
  else some (str2cp "10")

/-- A clean sample shard row for Kerala. -/
def rowB : RawRow := fun c =>
  if c = dateCol then some (str2cp "02-01-2020")
  else if c = stateCol then some (str2cp "Kerala")
  else some (str2cp "5")

/-- The group columns of the master pipeline. -/
def gcolsW : List Col := [dateCol, stateCol, districtCol]

/-- A one-column sum configuration. -/
def scolsW : List Col := [str2cp "age_0_5"]

/-- A two-shard sample dataset. -/
def filesW : List (List RawRow) := [[rowA], [rowB]]

/-- The same dataset with the shard order swapped. -/
def filesW2 : List (List RawRow) := [[rowB], [rowA]]

/-- The aggregate table of the sample dataset at chunk size 1. -/
def tW : List (AggRow scolsW.length) :=
  groupbySum AggRow.key AggRow.sums (chunkTables 1 gcolsW scolsW filesW).flatten

/-- The aggregate table of the swapped dataset at chunk size 3. -/
def tW2 : List (AggRow scolsW.length) :=
  groupbySum AggRow.key AggRow.sums (chunkTables 3 gcolsW scolsW filesW2).flatten

/-- C1 witness: on the sample dataset, the two-phase table at chunk size 1
equals the one-pass table as a set, and coincides with the table computed
at chunk size 3 on the swapped shard order. -/
theorem C1_two_phase_witness :
    aggSetEq tW (onePass filesW gcolsW scolsW) ∧ aggSetEq tW tW2 :=
  C1_two_phase_equals_one_pass filesW filesW2 gcolsW scolsW 1 3 tW tW2
    Nat.one_pos (by norm_num) (List.Perm.swap [rowB] [rowA] [])
    (aggregate_folder_ok_of_ne (chunkTables_ne_nil
      ⟨[rowA], List.mem_cons_self _ _, List.cons_ne_nil _ _⟩))
    (aggregate_folder_ok_of_ne (chunkTables_ne_nil
      ⟨[rowB], List.mem_cons_self _ _, List.cons_ne_nil _ _⟩))

/-- C2 witness: the sample aggregate table has pairwise distinct keys. -/
theorem C2_aggregate_row_exact_sums_witness : (tW.map AggRow.key).Nodup :=
  (C2_aggregate_row_exact_sums filesW gcolsW scolsW 1 tW Nat.one_pos
    (aggregate_folder_ok_of_ne (chunkTables_ne_nil
      ⟨[rowA], List.mem_cons_self _ _, List.cons_ne_nil _ _⟩))).1

/-- C10 witness: a present shard whose only row has no parseable cell
yields a normal return with an empty aggregate table. -/
theorem C10_fully_dropped_witness :
    aggregate_folder [[noStateRow]] gcolsW scolsW 1 = Except.ok [] :=
  C10_fully_dropped_returns_empty [[noStateRow]] gcolsW scolsW 1 Nat.one_pos
    ⟨[noStateRow], List.mem_cons_self _ _, List.cons_ne_nil _ _⟩
    (fun f hf r hr => by
      rcases List.mem_singleton.mp hf with rfl
      rcases List.mem_singleton.mp hr with rfl
      rfl)
